import Mathlib

/-!
# golang-log-site: the tailing-and-broadcast core of `main.go`

A shallow embedding of `LogWatcher` (`checkForChanges`, `notifyClients`, the
disconnect goroutine of `ServeHTTP`) and of `findMostRecentLogFile`, with the
properties of the specification stated and settled over it.

Conventions of the embedding

* Go code either returns or panics: `Outcome`.
* A `chan string` is a reference; the channels made so far live in
  `LogWatcher.heap` and a channel value is its index there.
* `map[chan string]bool` is the list of its keys. `range` over a map visits
  the keys in an order the runtime picks: the list order stands for that pick;
  the general statements hold for every list, the concrete ones are given for
  each order.
* A cycle of `checkForChanges` sees one snapshot of the file system (`Sys`).
* `lastPosition` is an `int64` that only ever holds `0` or a file size, so it
  is a `Nat`.
-/

namespace LogSite

/-! ## Go runtime: outcomes and channels -/

/-- Outcome of running a piece of Go code: it returns, or the goroutine panics
(an unrecovered panic ends the process). -/
inductive Outcome (α : Type) where
  | done : α → Outcome α
  | panic : String → Outcome α
  deriving DecidableEq, Repr

/-- Whether the code returned normally. -/
def Outcome.returned {α : Type} : Outcome α → Bool
  | .done _ => true
  | .panic _ => false

/-- A buffered `chan string`: pending elements (oldest first), capacity, and
whether `close` was called on it. -/
structure Chan where
  buf : List String
  cap : Nat
  closed : Bool
  deriving DecidableEq, Repr

/-- Free slots of a channel's buffer. -/
def Chan.free (c : Chan) : Nat := c.cap - c.buf.length

/-- The `LogWatcher` struct of `main.go` (the two mutexes make each method body
atomic and are not represented), together with the channel memory `heap` and a
ghost field `notified` listing the batches handed to `notifyClients` so far,
oldest first. -/
structure LogWatcher where
  filename : String
  lastPosition : Nat
  clients : List Nat
  heap : List Chan
  notified : List (List String)
  deriving DecidableEq, Repr

/-- `NewLogWatcher(filename)`. -/
def NewLogWatcher (filename : String) : LogWatcher :=
  { filename := filename, lastPosition := 0, clients := [], heap := [], notified := [] }

/-- One `select { case client <- line: ... default: ... }`.
`done (some heap)`: the send case ran; `done none`: the default case ran
(buffer full, or a nil channel, on which a send is never ready); a send on a
closed channel panics, inside a `select` too. -/
def trySend (heap : List Chan) (client : Nat) (line : String) : Outcome (Option (List Chan)) :=
  match heap[client]? with
  | none => .done none
  | some ch =>
    if ch.closed then .panic "send on closed channel"
    else if ch.buf.length < ch.cap then
      .done (some (heap.set client { ch with buf := ch.buf ++ [line] }))
    else .done none

/-- The builtin `close(ch)`. -/
def closeChan (heap : List Chan) (client : Nat) : Outcome (List Chan) :=
  match heap[client]? with
  | none => .panic "close of nil channel"
  | some ch =>
    if ch.closed then .panic "close of closed channel"
    else .done (heap.set client { ch with closed := true })

/-- The builtin `delete(w.clients, client)`. -/
def deleteClient (clients : List Nat) (client : Nat) : List Nat :=
  clients.filter (fun k => k != client)

/-! ## Broadcast hub: `notifyClients` and the `ServeHTTP` registration -/

/-- The inner loop of `notifyClients` (lines 196-205) for one `client`:
`for _, line := range lines { select { ... } }`. The default case deletes
the client and closes its channel; the loop then goes on to the next line. -/
def sendLines (client : Nat) : LogWatcher → List String → Outcome LogWatcher
  | w, [] => .done w
  | w, line :: rest =>
    match trySend w.heap client line with
    | .panic m => .panic m
    | .done (some heap1) => sendLines client { w with heap := heap1 } rest
    | .done none =>
      let w1 := { w with clients := deleteClient w.clients client }
      match closeChan w1.heap client with
      | .panic m => .panic m
      | .done heap1 => sendLines client { w1 with heap := heap1 } rest

/-- The outer loop of `notifyClients` (line 195) over the keys `keys` still to
visit. A key deleted before it is reached is not produced. -/
def rangeClients (lines : List String) : List Nat → LogWatcher → Outcome LogWatcher
  | [], w => .done w
  | client :: keys, w =>
    if client ∈ w.clients then
      match sendLines client w lines with
      | .panic m => .panic m
      | .done w1 => rangeClients lines keys w1
    else rangeClients lines keys w

/-- `(*LogWatcher).notifyClients(lines)`. -/
def notifyClients (w : LogWatcher) (lines : List String) : Outcome LogWatcher :=
  rangeClients lines w.clients { w with notified := w.notified ++ [lines] }

/-- Lines 216-220 of `ServeHTTP`: `messageChan := make(chan string, 100)` and
its registration. Returns the new state and the channel. -/
def ServeHTTP_register (w : LogWatcher) : LogWatcher × Nat :=
  let messageChan := w.heap.length
  ({ w with heap := w.heap ++ [{ buf := [], cap := 100, closed := false }],
            clients := w.clients ++ [messageChan] }, messageChan)

/-- Lines 223-229 of `ServeHTTP`: the goroutine that runs once the request's
context is done: `delete(w.clients, messageChan); close(messageChan)`. -/
def ServeHTTP_disconnect (w : LogWatcher) (messageChan : Nat) : Outcome LogWatcher :=
  let w1 := { w with clients := deleteClient w.clients messageChan }
  match closeChan w1.heap messageChan with
  | .panic m => .panic m
  | .done heap1 => .done { w1 with heap := heap1 }

/-- The consumer loop of `ServeHTTP` (line 242) taking every pending element
of `messageChan`. -/
def drain (w : LogWatcher) (messageChan : Nat) : LogWatcher :=
  match w.heap[messageChan]? with
  | none => w
  | some ch => { w with heap := w.heap.set messageChan { ch with buf := [] } }

/-! ## File system and library calls seen by the detector -/

/-- An open `*os.File` as one cycle sees it: the name given to `Open`, the
bytes of the file (a byte is written as a `Char`; the code only ever tells
`\n` and `\r` from the rest, and the size is the number of bytes), and whether
`Stat`, `Seek` or a `Read` fails on it. -/
structure File where
  name : String
  content : List Char
  statErr : Bool
  seekErr : Bool
  readErr : Bool
  deriving DecidableEq, Repr

/-- The error of a failed `os.Open`, up to what `os.IsNotExist` tells. -/
inductive OpenError where
  | notExist
  | other
  deriving DecidableEq, Repr

/-- `os.IsNotExist(err)`. -/
def IsNotExist : OpenError → Bool
  | .notExist => true
  | .other => false

/-- An `os.DirEntry`: `Name()`, `IsDir()`, and `Info()` as the modification
time of the info it returns (nanoseconds), `none` when `Info()` fails. -/
structure DirEntry where
  name : String
  isDir : Bool
  info : Option Int
  deriving DecidableEq, Repr

/-- The local type `fileInfo` of `findMostRecentLogFile`. -/
structure fileInfo where
  path : String
  modTime : Int
  deriving DecidableEq, Repr

/-- What lies outside `main.go`: the file system snapshot of one cycle
(`os.Open`, `os.ReadDir`) and the library functions whose result the code only
passes on (`filepath.Dir`, `filepath.Join`, `strings.ToLower`, `sort.Slice`).
`ReadDir` is `none` when `os.ReadDir` returns an error. -/
structure Sys where
  Open : String → Except OpenError File
  ReadDir : String → Option (List DirEntry)
  Dir : String → String
  Join : String → String → String
  ToLower : String → String
  SortSlice : List fileInfo → (fileInfo → fileInfo → Bool) → List fileInfo

/-- `(*os.File).Name()` is `return f.name`: on a nil `*os.File` it
dereferences nil. -/
def Name : Option File → Outcome String
  | none => .panic "invalid memory address or nil pointer dereference"
  | some f => .done f.name

/-- `strings.HasPrefix(s, p)`. -/
def HasPrefix (s p : String) : Bool := p.data.isPrefixOf s.data

/-- `strings.HasSuffix(s, p)`. -/
def HasSuffix (s p : String) : Bool := p.data.isSuffixOf s.data

/-- `t.After(u)` on modification times. -/
def After (t u : Int) : Bool := decide (u < t)

/-! ## `bufio.Scanner` with the default split function `ScanLines` -/

/-- `bufio.MaxScanTokenSize`: the scanner's buffer cannot grow beyond it. -/
def MaxScanTokenSize : Nat := 64 * 1024

/-- `dropCR` of package bufio: drops one trailing `\r`. -/
def dropCR (data : List Char) : List Char :=
  if data.getLast? = some '\r' then data.dropLast else data

/-- The loop `for scanner.Scan() { newLines = append(newLines, scanner.Text()) }`
followed by `scanner.Err()`, over the bytes still to read; `cur` holds the
bytes of the line under way. A line ends at `\n`; at end of input a non-empty
rest is a last line of its own. A line of `MaxScanTokenSize` bytes or more
fills the buffer before its end is seen: `ErrTooLong`, here `none`. -/
def scanLines (cur : List Char) : List Char → Option (List String)
  | [] =>
    if cur = [] then some []
    else if MaxScanTokenSize ≤ cur.length then none
    else some [String.mk (dropCR cur)]
  | c :: rest =>
    if c = '\n' then
      if MaxScanTokenSize ≤ cur.length then none
      else (scanLines [] rest).map (fun ls => String.mk (dropCR cur) :: ls)
    else scanLines (cur ++ [c]) rest

/-- Lines 169-178: a scanner over `file` positioned at `offset`. `none` when
`scanner.Err()` is not nil (a failed read, or a line too long). -/
def scanFile (file : File) (offset : Nat) : Option (List String) :=
  if file.readErr then none else scanLines [] (file.content.drop offset)

/-! ## `findMostRecentLogFile` -/

/-- The loop of lines 300-324 building `files`. -/
def collectFiles (sys : Sys) (dirPath : String) : List DirEntry → List fileInfo
  | [] => []
  | entry :: rest =>
    if entry.isDir then collectFiles sys dirPath rest
    else if HasPrefix entry.name "." then collectFiles sys dirPath rest
    else if !HasSuffix (sys.ToLower entry.name) ".log" then collectFiles sys dirPath rest
    else
      let fullPath := sys.Join dirPath entry.name
      match entry.info with
      | none => collectFiles sys dirPath rest
      | some modTime => { path := fullPath, modTime := modTime } :: collectFiles sys dirPath rest

/-- `findMostRecentLogFile(dirPath)`; `none` stands for a non-nil error.
`sort.Slice` sorts the slice in place, so `files[0]` exists after it; the
`[]` branch is there for totality only. -/
def findMostRecentLogFile (sys : Sys) (dirPath : String) : Option String :=
  match sys.ReadDir dirPath with
  | none => none
  | some entries =>
    if entries.length = 0 then none
    else
      let files := collectFiles sys dirPath entries
      if files.length = 0 then none
      else
        match sys.SortSlice files (fun a b => After a.modTime b.modTime) with
        | [] => none
        | first :: _ => some first.path

/-! ## Tail detector: `checkForChanges` -/

/-- Lines 144-187 of `checkForChanges`, once `file` is open. -/
def checkOpened (file : File) (w : LogWatcher) : Outcome LogWatcher :=
  if file.statErr then .done w
  else
    let size := file.content.length
    let w1 := if size < w.lastPosition then { w with lastPosition := 0 } else w
    if size > w1.lastPosition then
      if file.seekErr then .done w1
      else
        match scanFile file w1.lastPosition with
        | none => .done w1
        | some newLines =>
          let w2 := { w1 with lastPosition := size }
          if newLines.length > 0 then notifyClients w2 newLines else .done w2
    else .done w1

/-- `(*LogWatcher).checkForChanges()`. -/
def checkForChanges (sys : Sys) (w : LogWatcher) : Outcome LogWatcher :=
  match sys.Open w.filename with
  | .ok file => checkOpened file w
  | .error err =>
    if IsNotExist err then
      match findMostRecentLogFile sys (sys.Dir w.filename) with
      | none => .done w
      | some newFile =>
        if newFile != w.filename then
          let w1 := { w with filename := newFile, lastPosition := 0 }
          match sys.Open w1.filename with
          | .error _ =>
            -- `file` is nil; the arguments of `log.Printf` are evaluated first
            match Name none with
            | .panic m => .panic m
            | .done _ => .done w1
          | .ok file => checkOpened file w1
        else .done w
    else .done w

/-- `Watch()` over the file-system snapshots of its successive cycles (the
loop itself never ends; the sleep between cycles is not represented). -/
def Watch : List Sys → LogWatcher → Outcome LogWatcher
  | [], w => .done w
  | sys :: later, w =>
    match checkForChanges sys w with
    | .panic m => .panic m
    | .done w1 => Watch later w1

/-! ## Concrete environments -/

/-- A readable file. -/
def plainFile (name : String) (content : String) : File :=
  { name := name, content := content.data, statErr := false, seekErr := false, readErr := false }

/-- Insertion sort by `less`, one function meeting the contract of `sort.Slice`. -/
def insertionSortSlice (files : List fileInfo) (less : fileInfo → fileInfo → Bool) :
    List fileInfo :=
  files.insertionSort (fun a b => less b a = false)

/-- A file system with the given files and directories. -/
def sysOf (files : List (String × Except OpenError File))
    (dirs : List (String × List DirEntry)) (dir : String) : Sys :=
  { Open := fun p => (files.lookup p).getD (.error .notExist)
    ReadDir := fun d => dirs.lookup d
    Dir := fun _ => dir
    Join := fun d n => d ++ "/" ++ n
    ToLower := fun s => String.mk (s.data.map Char.toLower)
    SortSlice := insertionSortSlice }

/-- The file system in which `path` holds `content` and is readable. -/
def sysWith (path : String) (content : List Char) : Sys :=
  sysOf [(path, .ok
    { name := path, content := content, statErr := false, seekErr := false, readErr := false })]
    [] "logs"

/-- A fresh watcher on `logs/app.log` with one subscriber registered by
`ServeHTTP` (channel `0`, capacity 100) that has consumed nothing. -/
def oneSubscriber : LogWatcher := (ServeHTTP_register (NewLogWatcher "logs/app.log")).1

/-- The state of `oneSubscriber` after a batch of 101 lines: the channel holds
100 lines, and the 101st found it full, so it was unregistered and closed. -/
def evictedSubscriber : LogWatcher :=
  { filename := "logs/app.log", lastPosition := 0, clients := [],
    heap := [{ buf := List.replicate 100 "x", cap := 100, closed := true }],
    notified := [List.replicate 101 "x"] }

/-- Two subscribers registered by `ServeHTTP`: channel `0` is consumed promptly
and is empty, channel `1` is never consumed and holds 100 pending lines.
`order` is the order in which `range w.clients` produces the two keys. -/
def siblings (order : List Nat) : LogWatcher :=
  { filename := "logs/app.log", lastPosition := 0, clients := order,
    heap := [{ buf := [], cap := 100, closed := false },
             { buf := List.replicate 100 "x", cap := 100, closed := false }],
    notified := [] }

/-- The watched file is gone; its directory holds `app-2.log`, which cannot be
opened (for instance: no read permission). -/
def sysUnreadableReplacement : Sys :=
  sysOf [("logs/app-2.log", .error .other)]
    [("logs", [{ name := "app-2.log", isDir := false, info := some 5 }])] "logs"

/-- The watched file is gone; its directory holds the newer `app-2.log` with
two lines, an older `app-1.LOG`, a hidden file and a directory. -/
def sysRotated : Sys :=
  sysOf [("logs/app-2.log", .ok (plainFile "logs/app-2.log" "l1\nl2\n")),
         ("logs/app-1.LOG", .ok (plainFile "logs/app-1.LOG" "old\n"))]
    [("logs", [{ name := "app-1.LOG", isDir := false, info := some 3 },
               { name := "app-2.log", isDir := false, info := some 5 },
               { name := ".hidden.log", isDir := false, info := some 9 },
               { name := "old.log", isDir := true, info := some 8 },
               { name := "notes.txt", isDir := false, info := some 7 },
               { name := "gone.log", isDir := false, info := none }])] "logs"

/-- The watched file is gone and its directory holds no log file. -/
def sysNoReplacement : Sys :=
  sysOf [] [("logs", [{ name := "notes.txt", isDir := false, info := some 7 }])] "logs"

/-- The watched file is gone; the replacement opens but its `Stat` fails. -/
def sysReplacementStatFails : Sys :=
  sysOf [("logs/app-2.log", .ok
      { name := "logs/app-2.log", content := "l1\n".data, statErr := true, seekErr := false,
        readErr := false })]
    [("logs", [{ name := "app-2.log", isDir := false, info := some 5 }])] "logs"

/-- The watched file was cut down to `ab\n` and reading it fails. -/
def sysTruncatedReadFails : Sys :=
  sysOf [("logs/app.log", .ok
      { name := "logs/app.log", content := "ab\n".data, statErr := false, seekErr := false,
        readErr := true })] [] "logs"

/-- The watched file cannot be opened, for a reason other than not-found. -/
def sysOpenFails : Sys := sysOf [("logs/app.log", .error .other)] [] "logs"

/-- A watcher on `logs/app.log` whose cursor is at offset 10. -/
def watcherAt10 : LogWatcher := { NewLogWatcher "logs/app.log" with lastPosition := 10 }

/-! ## Lines of a byte sequence, as the specification words them -/

/-- The text delivered for a line: its bytes without the terminator, one
trailing `\r` dropped. -/
def lineText (seg : List Char) : String := String.mk (dropCR seg)

/-- The pieces of `data` between its `\n` bytes; the last piece is what follows
the last `\n` (the unterminated rest, possibly empty). -/
def pieces (data : List Char) : List (List Char) := data.splitOn '\n'

/-- The completed lines of `data`: the pieces that a `\n` ends, in order. -/
def completedLines (data : List Char) : List String :=
  (pieces data).dropLast.map lineText

/-- Every line of `data`: its completed lines, then the unterminated rest when
there is one. -/
def allLines (data : List Char) : List String :=
  completedLines data ++
    (if (pieces data).getLast? = some [] then [] else ((pieces data).getLast?.map lineText).toList)

/-- No line of `data` reaches `MaxScanTokenSize` bytes. -/
def ShortLines (data : List Char) : Prop :=
  ∀ seg ∈ pieces data, seg.length < MaxScanTokenSize

instance (data : List Char) : Decidable (ShortLines data) := by
  unfold ShortLines; infer_instance

/-! ## Runs and failure of a cycle -/

/-- Whether a file operation of lines 147-178 fails on `file` when the cursor
is `lastPosition`: `Stat` fails, or there is content to read and `Seek` or the
scan fails. -/
def failsOn (file : File) (lastPosition : Nat) : Bool :=
  file.statErr ||
    (decide ((if file.content.length < lastPosition then 0 else lastPosition)
        < file.content.length) &&
      (file.seekErr ||
        (scanFile file
          (if file.content.length < lastPosition then 0 else lastPosition)).isNone))

/-- The `Watch` loop with one cycle after each append to the watched file:
`sys content` is the file system when the file holds `content`, and `others`
is what the other goroutines (registrations, consumers and disconnects of
`ServeHTTP`) do to the registry and the channels before a cycle. -/
def watchAppends (sys : List Char → Sys) (others : LogWatcher → LogWatcher) :
    LogWatcher → List Char → List (List Char) → Outcome LogWatcher
  | w, _, [] => .done w
  | w, content, a :: later =>
    match checkForChanges (sys (content ++ a)) (others w) with
    | .panic m => .panic m
    | .done w1 => watchAppends sys others w1 (content ++ a) later

/-! ## Eligible entries and the contract of `sort.Slice` -/

/-- An entry that `findMostRecentLogFile` keeps: not a directory, not hidden,
named `*.log` whatever the case, with a readable info. -/
def Eligible (sys : Sys) (e : DirEntry) : Prop :=
  e.isDir = false ∧ HasPrefix e.name "." = false ∧
    HasSuffix (sys.ToLower e.name) ".log" = true ∧ e.info.isSome = true

/-- What `sort.Slice` promises for the comparison of line 332: the slice is
permuted, and afterwards no element is less than (here: newer than) one
standing before it. Which of several equal elements comes first is left open. -/
def SortsNewestFirst (sort : List fileInfo → (fileInfo → fileInfo → Bool) → List fileInfo) :
    Prop :=
  ∀ files : List fileInfo,
    (sort files (fun a b => After a.modTime b.modTime)).Perm files ∧
    (sort files (fun a b => After a.modTime b.modTime)).Pairwise
      (fun a b => After b.modTime a.modTime = false)

/-! ## Lemmas on `pieces` and `scanLines` -/

theorem pieces_ne_nil (data : List Char) : pieces data ≠ [] :=
  List.splitOnP_ne_nil _ _

theorem pieces_nil : pieces [] = [[]] := rfl

theorem pieces_of_no_newline (cur : List Char) (h : '\n' ∉ cur) : pieces cur = [cur] := by
  unfold pieces List.splitOn
  apply List.splitOnP_eq_single
  intro x hx hp
  have : x = '\n' := by simpa using hp
  exact h (this ▸ hx)

theorem pieces_first (cur rest : List Char) (h : '\n' ∉ cur) :
    pieces (cur ++ '\n' :: rest) = cur :: pieces rest := by
  unfold pieces List.splitOn
  apply List.splitOnP_first
  · intro x hx hp
    have : x = '\n' := by simpa using hp
    exact h (this ▸ hx)
  · simp

theorem pieces_append_newline (a b : List Char) :
    pieces (a ++ '\n' :: b) = pieces a ++ pieces b := by
  induction a with
  | nil =>
    have := pieces_first [] b (by simp)
    simpa [pieces_nil] using this
  | cons x a ih =>
    unfold pieces List.splitOn at ih ⊢
    rw [List.cons_append, List.splitOnP_cons, List.splitOnP_cons, ih]
    split
    · rfl
    · cases h : List.splitOnP (fun x => x == '\n') a with
      | nil => exact absurd h (List.splitOnP_ne_nil _ _)
      | cons hd tl => simp [List.modifyHead]

theorem allLines_of_no_newline (cur : List Char) (h : '\n' ∉ cur) :
    allLines cur = if cur = [] then [] else [lineText cur] := by
  unfold allLines completedLines
  rw [pieces_of_no_newline cur h]
  by_cases hc : cur = [] <;> simp [hc]

theorem allLines_first (cur rest : List Char) (h : '\n' ∉ cur) :
    allLines (cur ++ '\n' :: rest) = lineText cur :: allLines rest := by
  unfold allLines completedLines
  rw [pieces_first cur rest h]
  cases hp : pieces rest with
  | nil => exact absurd hp (pieces_ne_nil rest)
  | cons hd tl => simp [List.getLast?_cons_cons]

/-- The scanner returns every line of its input when none is too long. -/
theorem scanLines_eq_allLines (data cur : List Char) (hcur : '\n' ∉ cur)
    (hshort : ShortLines (cur ++ data)) :
    scanLines cur data = some (allLines (cur ++ data)) := by
  induction data generalizing cur with
  | nil =>
    have hlen : cur.length < MaxScanTokenSize := by
      have := hshort cur (by rw [List.append_nil, pieces_of_no_newline cur hcur]; simp)
      exact this
    rw [List.append_nil, allLines_of_no_newline cur hcur]
    by_cases hc : cur = []
    · simp [scanLines, hc]
    · simp [scanLines, hc, Nat.not_le.mpr hlen, lineText]
  | cons c rest ih =>
    by_cases hn : c = '\n'
    · subst hn
      have hp := pieces_first cur rest hcur
      have hlen : cur.length < MaxScanTokenSize := hshort cur (by rw [hp]; simp)
      have hrest : ShortLines ([] ++ rest) := by
        intro seg hseg
        exact hshort seg (by rw [hp]; exact List.mem_cons_of_mem _ hseg)
      rw [allLines_first cur rest hcur]
      simp [scanLines, Nat.not_le.mpr hlen, ih [] (by simp) hrest, lineText]
    · have hcur2 : '\n' ∉ cur ++ [c] := by
        simp only [List.mem_append, List.mem_singleton, not_or]
        exact ⟨hcur, fun h => hn h.symm⟩
      have hs2 : ShortLines ((cur ++ [c]) ++ rest) := by
        simpa [List.append_assoc] using hshort
      have := ih (cur ++ [c]) hcur2 hs2
      simp only [scanLines, hn, if_false]
      simpa [List.append_assoc] using this

/-- A line too long makes the scan fail. -/
theorem scanLines_none_of_long (data cur : List Char) (hcur : '\n' ∉ cur)
    (hlong : ¬ ShortLines (cur ++ data)) :
    scanLines cur data = none := by
  induction data generalizing cur with
  | nil =>
    have hlen : MaxScanTokenSize ≤ cur.length := by
      by_contra hlt
      apply hlong
      intro seg hseg
      rw [List.append_nil, pieces_of_no_newline cur hcur] at hseg
      simp at hseg
      subst hseg
      exact Nat.not_le.mp hlt
    have hc : cur ≠ [] := by
      intro h
      rw [h] at hlen
      simp [MaxScanTokenSize] at hlen
    simp [scanLines, hc, hlen]
  | cons c rest ih =>
    by_cases hn : c = '\n'
    · subst hn
      have hp := pieces_first cur rest hcur
      by_cases hlen : MaxScanTokenSize ≤ cur.length
      · simp [scanLines, hlen]
      · have hrest : ¬ ShortLines ([] ++ rest) := by
          intro hs
          apply hlong
          intro seg hseg
          rw [hp] at hseg
          rcases List.mem_cons.mp hseg with h | h
          · subst h; exact Nat.not_le.mp hlen
          · exact hs seg h
        simp [scanLines, hlen, ih [] (by simp) hrest]
    · have hcur2 : '\n' ∉ cur ++ [c] := by
        simp only [List.mem_append, List.mem_singleton, not_or]
        exact ⟨hcur, fun h => hn h.symm⟩
      have hs2 : ¬ ShortLines ((cur ++ [c]) ++ rest) := by
        simpa [List.append_assoc] using hlong
      have := ih (cur ++ [c]) hcur2 hs2
      simp only [scanLines, hn, if_false]
      exact this

theorem allLines_ne_nil (data cur : List Char) (hcur : '\n' ∉ cur) (hne : cur ++ data ≠ []) :
    allLines (cur ++ data) ≠ [] := by
  induction data generalizing cur with
  | nil =>
    rw [List.append_nil] at hne ⊢
    rw [allLines_of_no_newline cur hcur]
    simp [hne]
  | cons c rest ih =>
    by_cases hn : c = '\n'
    · subst hn
      rw [allLines_first cur rest hcur]
      simp
    · have hcur2 : '\n' ∉ cur ++ [c] := by
        simp only [List.mem_append, List.mem_singleton, not_or]
        exact ⟨hcur, fun h => hn h.symm⟩
      have := ih (cur ++ [c]) hcur2 (by simp)
      simpa [List.append_assoc] using this

theorem allLines_nil : allLines [] = [] := by
  simp [allLines, completedLines, pieces_nil]

/-- After a terminator the completed lines of what follows are simply appended. -/
theorem completedLines_append_newline (a b : List Char) :
    completedLines (a ++ '\n' :: b) = completedLines (a ++ ['\n']) ++ completedLines b := by
  unfold completedLines
  rw [pieces_append_newline a b, pieces_append_newline a [], pieces_nil]
  have hb := pieces_ne_nil b
  cases hp : pieces b with
  | nil => exact absurd hp hb
  | cons hd tl => simp [List.dropLast_append_cons]

theorem allLines_append_newline (a b : List Char) :
    allLines (a ++ '\n' :: b) = completedLines (a ++ ['\n']) ++ allLines b := by
  unfold allLines
  rw [completedLines_append_newline a b, pieces_append_newline a b]
  have hb := pieces_ne_nil b
  cases hp : pieces b with
  | nil => exact absurd hp hb
  | cons hd tl =>
    have hl : (hd :: tl).getLast? = some ((hd :: tl).getLast (by simp)) :=
      List.getLast?_eq_getLast _ _
    simp only [List.getLast?_append, hl, Option.or_some, List.append_assoc]

/-- When the data ends with a terminator (or is empty) all its lines are completed. -/
theorem allLines_eq_completedLines (data : List Char)
    (h : data = [] ∨ data.getLast? = some '\n') : allLines data = completedLines data := by
  rcases h with h | h
  · subst h; simp [allLines, completedLines, pieces_nil]
  · obtain ⟨a, rfl⟩ := List.getLast?_eq_some_iff.mp h
    rw [allLines_append_newline a [], allLines_nil, List.append_nil]

/-- Completed lines followed by an unterminated fragment. -/
theorem allLines_with_fragment (whole frag : List Char)
    (hwhole : whole = [] ∨ whole.getLast? = some '\n')
    (hfrag : frag ≠ []) (hnl : '\n' ∉ frag) :
    allLines (whole ++ frag) = completedLines whole ++ [lineText frag] := by
  have hf : allLines frag = [lineText frag] := by
    rw [allLines_of_no_newline frag hnl]; simp [hfrag]
  rcases hwhole with h | h
  · subst h
    simp [hf, completedLines, pieces_nil]
  · obtain ⟨a, rfl⟩ := List.getLast?_eq_some_iff.mp h
    have : a ++ ['\n'] ++ frag = a ++ '\n' :: frag := by simp
    rw [this, allLines_append_newline a frag, hf]

/-! ## Lemmas on the hub: what `notifyClients` leaves alone -/

theorem sendLines_fields (client : Nat) (lines : List String) (w w1 : LogWatcher)
    (h : sendLines client w lines = .done w1) :
    w1.filename = w.filename ∧ w1.lastPosition = w.lastPosition ∧ w1.notified = w.notified := by
  induction lines generalizing w with
  | nil =>
    simp only [sendLines, Outcome.done.injEq] at h
    subst h; exact ⟨rfl, rfl, rfl⟩
  | cons line rest ih =>
    simp only [sendLines] at h
    split at h
    · exact absurd h (by simp)
    · have := ih _ h
      exact this
    · split at h
      · exact absurd h (by simp)
      · have := ih _ h
        exact this

theorem rangeClients_fields (lines : List String) (keys : List Nat) (w w1 : LogWatcher)
    (h : rangeClients lines keys w = .done w1) :
    w1.filename = w.filename ∧ w1.lastPosition = w.lastPosition ∧ w1.notified = w.notified := by
  induction keys generalizing w with
  | nil =>
    simp only [rangeClients, Outcome.done.injEq] at h
    subst h; exact ⟨rfl, rfl, rfl⟩
  | cons client keys ih =>
    simp only [rangeClients] at h
    split at h
    · split at h
      · exact absurd h (by simp)
      · rename_i w2 hs
        obtain ⟨h1, h2, h3⟩ := sendLines_fields client lines w w2 hs
        obtain ⟨g1, g2, g3⟩ := ih w2 h
        exact ⟨g1.trans h1, g2.trans h2, g3.trans h3⟩
    · exact ih w h

/-- A call of `notifyClients` that returns leaves `filename` and `lastPosition`
as they were and records its batch. -/
theorem notifyClients_fields (w w1 : LogWatcher) (lines : List String)
    (h : notifyClients w lines = .done w1) :
    w1.filename = w.filename ∧ w1.lastPosition = w.lastPosition ∧
      w1.notified = w.notified ++ [lines] := by
  unfold notifyClients at h
  exact rangeClients_fields lines _ _ w1 h

/-! ## Lemmas on `checkOpened` -/

/-- A readable file that is not shorter than the cursor: the lines after the
cursor are handed to `notifyClients` and the cursor moves to the size. -/
theorem checkOpened_readable (file : File) (w : LogWatcher)
    (hstat : file.statErr = false) (hseek : file.seekErr = false)
    (hread : file.readErr = false)
    (hle : w.lastPosition ≤ file.content.length)
    (hshort : ShortLines (file.content.drop w.lastPosition)) :
    checkOpened file w =
      if w.lastPosition < file.content.length then
        notifyClients { w with lastPosition := file.content.length }
          (allLines (file.content.drop w.lastPosition))
      else .done w := by
  have hscan : scanFile file w.lastPosition = some (allLines (file.content.drop w.lastPosition)) := by
    simp only [scanFile, hread]
    exact scanLines_eq_allLines _ [] (by simp) hshort
  unfold checkOpened
  simp only [hstat, hseek, Nat.not_lt.mpr hle, if_false, Bool.false_eq_true, gt_iff_lt]
  split
  · rename_i hlt
    have hne : allLines ([] ++ file.content.drop w.lastPosition) ≠ [] :=
      allLines_ne_nil _ [] (by simp) (by
        simp only [List.nil_append, ne_eq, List.drop_eq_nil_iff, not_le]; exact hlt)
    simp only [List.nil_append] at hne
    simp only [hscan]
    rw [if_pos (List.length_pos.mpr hne)]
  · rfl

/-- A file found shorter than the cursor is read as if the cursor were `0`. -/
theorem checkOpened_truncated (file : File) (w : LogWatcher)
    (hstat : file.statErr = false) (htrunc : file.content.length < w.lastPosition) :
    checkOpened file w = checkOpened file { w with lastPosition := 0 } := by
  unfold checkOpened
  simp [hstat, htrunc]

/-- A readable file read from the start. -/
theorem checkOpened_from_start (file : File) (w : LogWatcher)
    (hstat : file.statErr = false) (hseek : file.seekErr = false)
    (hread : file.readErr = false) (hshort : ShortLines file.content)
    (hpos : w.lastPosition = 0) :
    checkOpened file w =
      if file.content = [] then .done w
      else notifyClients { w with lastPosition := file.content.length } (allLines file.content) := by
  rw [checkOpened_readable file w hstat hseek hread (by omega) (by simpa [hpos] using hshort)]
  by_cases hc : file.content = []
  · simp [hc, hpos]
  · have : 0 < file.content.length := List.length_pos.mpr hc
    simp [hc, hpos, this]

/-- Fields of the state in which a cycle over a readable file, read from the
start, ends. -/
theorem from_start_fields (file : File) (w w1 : LogWatcher)
    (h : (if file.content = [] then Outcome.done w
      else notifyClients { w with lastPosition := file.content.length }
        (allLines file.content)) = .done w1)
    (hpos : w.lastPosition = 0) :
    w1.lastPosition = file.content.length ∧ w1.filename = w.filename ∧
      w1.notified = w.notified ++ (if file.content = [] then [] else [allLines file.content]) := by
  by_cases hc : file.content = []
  · simp only [hc, if_true, Outcome.done.injEq] at h
    subst h
    simp [hc, hpos]
  · simp only [hc, if_false] at h
    obtain ⟨h1, h2, h3⟩ := notifyClients_fields _ _ _ h
    simp only [hc, if_false]
    exact ⟨h2, h1, h3⟩

/-- The call a cycle makes on truncation: when the watched file opens and is
shorter than `lastPosition`, a cycle without I/O failure reads it from offset
0: an empty file sends nothing and leaves `lastPosition = 0`; otherwise every
line of the file, in file order, is handed to `notifyClients` as one batch
with `lastPosition` set to the file's size. Whether that call returns is
settled by `checkForChanges_truncation_delivers` and `notifyClients_overflow`. -/
theorem checkForChanges_truncation_call (sys : Sys) (w : LogWatcher) (file : File)
    (hopen : sys.Open w.filename = .ok file)
    (hstat : file.statErr = false) (hseek : file.seekErr = false)
    (hread : file.readErr = false) (hshort : ShortLines file.content)
    (htrunc : file.content.length < w.lastPosition) :
    checkForChanges sys w =
        (if file.content = [] then .done { w with lastPosition := 0 }
         else notifyClients { w with lastPosition := file.content.length }
           (allLines file.content)) ∧
      ∀ w1, checkForChanges sys w = .done w1 →
        w1.lastPosition = file.content.length ∧ w1.filename = w.filename ∧
        w1.notified = w.notified ++
          (if file.content = [] then [] else [allLines file.content]) := by
  have heq : checkForChanges sys w =
      (if file.content = [] then .done { w with lastPosition := 0 }
       else notifyClients { w with lastPosition := file.content.length }
         (allLines file.content)) := by
    unfold checkForChanges
    simp only [hopen]
    rw [checkOpened_truncated file w hstat htrunc,
      checkOpened_from_start file _ hstat hseek hread hshort rfl]
  refine ⟨heq, fun w1 h1 => ?_⟩
  rw [heq] at h1
  exact from_start_fields file { w with lastPosition := 0 } w1 h1 rfl

/-- The call a cycle makes on rotation: when the watched path is not found and
the finder returns a readable file other than the current path, the cycle
switches `filename` to it, reads it from offset 0 and hands all its lines to
`notifyClients` as one batch (no call for an empty file); when the finder
fails or returns the current path the cycle returns the state unchanged,
nothing sent. Whether the call returns is settled by
`checkForChanges_rotation_delivers` and `notifyClients_overflow`. -/
theorem checkForChanges_rotation_call (sys : Sys) (w : LogWatcher)
    (hopen : sys.Open w.filename = .error .notExist) :
    (∀ newFile file, findMostRecentLogFile sys (sys.Dir w.filename) = some newFile →
      newFile ≠ w.filename → sys.Open newFile = .ok file →
      file.statErr = false → file.seekErr = false → file.readErr = false →
      ShortLines file.content →
      checkForChanges sys w =
          (if file.content = [] then .done { w with filename := newFile, lastPosition := 0 }
           else notifyClients
             { w with filename := newFile, lastPosition := file.content.length }
             (allLines file.content)) ∧
        ∀ w1, checkForChanges sys w = .done w1 →
          w1.filename = newFile ∧ w1.lastPosition = file.content.length ∧
          w1.notified = w.notified ++
            (if file.content = [] then [] else [allLines file.content])) ∧
    ((findMostRecentLogFile sys (sys.Dir w.filename) = none ∨
        findMostRecentLogFile sys (sys.Dir w.filename) = some w.filename) →
      checkForChanges sys w = .done w) := by
  constructor
  · intro newFile file hfind hne hopen2 hstat hseek hread hshort
    have heq : checkForChanges sys w =
        (if file.content = [] then .done { w with filename := newFile, lastPosition := 0 }
         else notifyClients
           { w with filename := newFile, lastPosition := file.content.length }
           (allLines file.content)) := by
      unfold checkForChanges
      simp only [hopen, IsNotExist, if_true, hfind, bne_iff_ne, ne_eq, hne, not_false_eq_true,
        hopen2]
      rw [checkOpened_from_start file _ hstat hseek hread hshort rfl]
    refine ⟨heq, fun w1 h1 => ?_⟩
    rw [heq] at h1
    obtain ⟨h2, h3, h4⟩ :=
      from_start_fields file { w with filename := newFile, lastPosition := 0 } w1 h1 rfl
    exact ⟨h3, h2, h4⟩
  · intro h
    unfold checkForChanges
    rcases h with h | h
    · simp [hopen, IsNotExist, h]
    · simp [hopen, IsNotExist, h]

/-- C3 (as the code has it). Partial lines: when the bytes after
`lastPosition` are completed lines `whole` followed by a non-empty
unterminated fragment `frag`, the cycle hands `notifyClients` the completed
lines followed by the fragment as a last line of its own, with `lastPosition`
moved to the file's size, past the fragment; a later cycle, run once `more`
has been appended, reads from there and hands over the lines of `more` alone. -/
theorem checkForChanges_partial_line (sys : Sys) (w : LogWatcher) (file : File)
    (whole frag : List Char)
    (hopen : sys.Open w.filename = .ok file)
    (hstat : file.statErr = false) (hseek : file.seekErr = false)
    (hread : file.readErr = false)
    (hle : w.lastPosition ≤ file.content.length)
    (hnew : file.content.drop w.lastPosition = whole ++ frag)
    (hwhole : whole = [] ∨ whole.getLast? = some '\n')
    (hfrag : frag ≠ []) (hnl : '\n' ∉ frag)
    (hshort : ShortLines (whole ++ frag)) :
    checkForChanges sys w =
        notifyClients { w with lastPosition := file.content.length }
          (completedLines whole ++ [lineText frag]) ∧
      ∀ w1, checkForChanges sys w = .done w1 →
        w1.lastPosition = file.content.length ∧
        w1.notified = w.notified ++ [completedLines whole ++ [lineText frag]] ∧
        ∀ (sys2 : Sys) (file2 : File) (more : List Char),
          sys2.Open w.filename = .ok file2 →
          file2.statErr = false → file2.seekErr = false → file2.readErr = false →
          file2.content = file.content ++ more → ShortLines more →
          checkForChanges sys2 w1 =
            if more = [] then .done w1
            else notifyClients { w1 with lastPosition := file2.content.length }
              (allLines more) := by
  have hlt : w.lastPosition < file.content.length := by
    have hlen : (file.content.drop w.lastPosition).length = (whole ++ frag).length := by
      rw [hnew]
    have hpos : 0 < frag.length := List.length_pos.mpr hfrag
    simp only [List.length_drop, List.length_append] at hlen
    omega
  have heq : checkForChanges sys w =
      notifyClients { w with lastPosition := file.content.length }
        (completedLines whole ++ [lineText frag]) := by
    unfold checkForChanges
    simp only [hopen]
    rw [checkOpened_readable file w hstat hseek hread hle (by rw [hnew]; exact hshort),
      if_pos hlt, hnew, allLines_with_fragment whole frag hwhole hfrag hnl]
  refine ⟨heq, fun w1 h1 => ?_⟩
  rw [heq] at h1
  obtain ⟨hf, hp, hn⟩ := notifyClients_fields _ _ _ h1
  refine ⟨hp, hn, ?_⟩
  intro sys2 file2 more hopen2 hstat2 hseek2 hread2 hcontent hshort2
  have hf1 : w1.filename = w.filename := hf
  have hp1 : w1.lastPosition = file.content.length := hp
  have hdrop : file2.content.drop w1.lastPosition = more := by
    rw [hcontent, hp1]; simp
  have hstep : checkForChanges sys2 w1 = checkOpened file2 w1 := by
    unfold checkForChanges
    rw [hf1, hopen2]
  rw [hstep]
  rw [checkOpened_readable file2 w1 hstat2 hseek2 hread2
    (by rw [hcontent, hp1]; simp) (by rw [hdrop]; exact hshort2), hdrop]
  by_cases hm : more = []
  · simp [hm, hcontent, hp1]
  · have : 0 < more.length := List.length_pos.mpr hm
    simp [hm, hcontent, hp1, this]

/-- C8 (as the code has it). A cycle in which a file operation fails sends
nothing and keeps the state it had reached before the failure: unchanged after
an open failing with an error other than not-found or after a failed stat;
with `lastPosition` reset to `0` when the file was found shorter than
`lastPosition` before the seek or the scan failed; and with `filename` switched
to the replacement and `lastPosition = 0` when the stat, seek or scan fails on
a replacement file opened after a not-found open. -/
theorem checkForChanges_on_failure (sys : Sys) (w : LogWatcher) :
    (sys.Open w.filename = .error .other → checkForChanges sys w = .done w) ∧
    (∀ file, sys.Open w.filename = .ok file → failsOn file w.lastPosition = true →
      checkForChanges sys w =
        .done (if file.statErr = false ∧ file.content.length < w.lastPosition
          then { w with lastPosition := 0 } else w)) ∧
    (∀ newFile file, sys.Open w.filename = .error .notExist →
      findMostRecentLogFile sys (sys.Dir w.filename) = some newFile →
      newFile ≠ w.filename → sys.Open newFile = .ok file → failsOn file 0 = true →
      checkForChanges sys w = .done { w with filename := newFile, lastPosition := 0 }) := by
  have key : ∀ (file : File) (v : LogWatcher), failsOn file v.lastPosition = true →
      checkOpened file v =
        .done (if file.statErr = false ∧ file.content.length < v.lastPosition
          then { v with lastPosition := 0 } else v) := by
    intro file v hf
    unfold checkOpened
    unfold failsOn at hf
    by_cases hstat : file.statErr = true
    · simp [hstat]
    · have hstat : file.statErr = false := by simpa using hstat
      simp only [hstat, Bool.false_or, Bool.and_eq_true, decide_eq_true_eq, Bool.or_eq_true,
        Option.isNone_iff_eq_none] at hf
      obtain ⟨hlt, hfail⟩ := hf
      by_cases htr : file.content.length < v.lastPosition
      · simp only [htr, if_true] at hlt hfail
        rcases hfail with hseek | hscan
        · simp [hstat, htr, hlt, hseek]
        · by_cases hseek : file.seekErr = true
          · simp [hstat, htr, hlt, hseek]
          · simp [hstat, htr, hlt, hseek, hscan]
      · simp only [htr, if_false] at hlt hfail
        rcases hfail with hseek | hscan
        · simp [hstat, htr, hlt, hseek]
        · by_cases hseek : file.seekErr = true
          · simp [hstat, htr, hlt, hseek]
          · simp [hstat, htr, hlt, hseek, hscan]
  refine ⟨?_, ?_, ?_⟩
  · intro hopen
    unfold checkForChanges
    simp [hopen, IsNotExist]
  · intro file hopen hf
    unfold checkForChanges
    simp only [hopen]
    exact key file w hf
  · intro newFile file hopen hfind hne hopen2 hf
    unfold checkForChanges
    simp only [hopen, IsNotExist, if_true, hfind, bne_iff_ne, ne_eq, hne, not_false_eq_true,
      hopen2]
    rw [key file { w with filename := newFile, lastPosition := 0 } hf]
    simp

theorem completedLines_append (content a : List Char)
    (hc : content = [] ∨ content.getLast? = some '\n') :
    completedLines (content ++ a) = completedLines content ++ completedLines a := by
  rcases hc with h | h
  · subst h; simp [completedLines, pieces_nil]
  · obtain ⟨c, rfl⟩ := List.getLast?_eq_some_iff.mp h
    have : c ++ ['\n'] ++ a = c ++ '\n' :: a := by simp
    rw [this, completedLines_append_newline c a]

/-- The invariant of a run over terminated appends, carried from a state whose
cursor is at the end of `content`. -/
theorem watchAppends_invariant (sys : List Char → Sys) (others : LogWatcher → LogWatcher)
    (name : String)
    (hopen : ∀ c, ∃ file, (sys c).Open name = .ok file ∧ file.content = c ∧
      file.statErr = false ∧ file.seekErr = false ∧ file.readErr = false)
    (hothers : ∀ w, (others w).filename = w.filename ∧
      (others w).lastPosition = w.lastPosition ∧ (others w).notified = w.notified)
    (appends : List (List Char)) :
    ∀ (content : List Char) (w w1 : LogWatcher),
      (∀ a ∈ appends, a = [] ∨ a.getLast? = some '\n') →
      (∀ a ∈ appends, ShortLines a) →
      w.filename = name → w.lastPosition = content.length →
      w.notified.flatten = completedLines content →
      (content = [] ∨ content.getLast? = some '\n') →
      watchAppends sys others w content appends = .done w1 →
      w1.notified.flatten = completedLines (content ++ appends.flatten) ∧
        w1.lastPosition = (content ++ appends.flatten).length ∧ w1.filename = name := by
  induction appends with
  | nil =>
    intro content w w1 _ _ hname hpos hnot _ hrun
    simp only [watchAppends, Outcome.done.injEq] at hrun
    subst hrun
    simp [hname, hpos, hnot]
  | cons a later ih =>
    intro content w w1 hterm hshort hname hpos hnot hend hrun
    obtain ⟨file, hfile, hcont, hstat, hseek, hread⟩ := hopen (content ++ a)
    obtain ⟨ho1, ho2, ho3⟩ := hothers w
    have hdrop : file.content.drop (others w).lastPosition = a := by
      rw [hcont, ho2, hpos]; simp
    have hcycle : checkForChanges (sys (content ++ a)) (others w) =
        if (others w).lastPosition < file.content.length then
          notifyClients { others w with lastPosition := file.content.length } (allLines a)
        else .done (others w) := by
      unfold checkForChanges
      rw [ho1, hname, hfile]
      simp only
      rw [checkOpened_readable file (others w) hstat hseek hread
        (by rw [hcont, ho2, hpos]; simp)
        (by rw [hdrop]; exact hshort a (List.mem_cons_self _ _)), hdrop]
    have hta := hterm a (List.mem_cons_self _ _)
    have hterm2 : ∀ b ∈ later, b = [] ∨ b.getLast? = some '\n' :=
      fun b hb => hterm b (List.mem_cons_of_mem _ hb)
    have hshort2 : ∀ b ∈ later, ShortLines b :=
      fun b hb => hshort b (List.mem_cons_of_mem _ hb)
    have hend2 : content ++ a = [] ∨ (content ++ a).getLast? = some '\n' := by
      rcases hta with h | h
      · subst h; simpa using hend
      · right
        obtain ⟨a1, rfl⟩ := List.getLast?_eq_some_iff.mp h
        rw [← List.append_assoc]
        exact List.getLast?_concat _
    simp only [watchAppends] at hrun
    rw [hcycle] at hrun
    by_cases ha : a = []
    · subst ha
      have hnlt : ¬ (others w).lastPosition < file.content.length := by
        rw [hcont, ho2, hpos]; simp
      rw [if_neg hnlt] at hrun
      simp only at hrun
      have := ih (content ++ []) (others w) w1 hterm2 hshort2 (ho1.trans hname)
        (by rw [ho2, hpos]; simp) (by rw [ho3, hnot]; simp) hend2 hrun
      simpa using this
    · have hlt : (others w).lastPosition < file.content.length := by
        have : 0 < a.length := List.length_pos.mpr ha
        rw [hcont, ho2, hpos]; simp; exact this
      rw [if_pos hlt] at hrun
      split at hrun
      · exact absurd hrun (by simp)
      · rename_i w2 hn
        obtain ⟨hf, hp, hnn⟩ := notifyClients_fields _ _ _ hn
        have hf2 : w2.filename = name := by rw [hf]; exact ho1.trans hname
        have hp2 : w2.lastPosition = (content ++ a).length := by rw [hp, hcont]
        have hn2 : w2.notified.flatten = completedLines (content ++ a) := by
          rw [hnn]
          simp only [List.flatten_append, List.flatten_cons, List.flatten_nil,
            List.append_nil]
          rw [completedLines_append content a hend, allLines_eq_completedLines a hta]
          have : (others w).notified.flatten = completedLines content := by rw [ho3, hnot]
          rw [← this]
        have := ih (content ++ a) w2 w1 hterm2 hshort2 hf2 hp2 hn2 hend2 hrun
        simpa [List.append_assoc] using this

/-- With no subscriber registered `notifyClients` only records its batch. -/
theorem notifyClients_no_clients (w : LogWatcher) (lines : List String)
    (h : w.clients = []) :
    notifyClients w lines = .done { w with notified := w.notified ++ [lines] } := by
  unfold notifyClients
  rw [h]
  rfl

/-- A cycle run right after an append, from a cursor at the end of the
previous contents. -/
theorem checkForChanges_after_append (sys : Sys) (v : LogWatcher) (file : File)
    (content a : List Char)
    (hfile : sys.Open v.filename = .ok file) (hcont : file.content = content ++ a)
    (hstat : file.statErr = false) (hseek : file.seekErr = false)
    (hread : file.readErr = false)
    (hpos : v.lastPosition = content.length) (hshort : ShortLines a) :
    checkForChanges sys v =
      if a = [] then .done v
      else notifyClients { v with lastPosition := (content ++ a).length } (allLines a) := by
  have hdrop : file.content.drop v.lastPosition = a := by
    rw [hcont, hpos]; simp
  unfold checkForChanges
  rw [hfile]
  simp only
  rw [checkOpened_readable file v hstat hseek hread (by rw [hcont, hpos]; simp)
    (by rw [hdrop]; exact hshort), hdrop, hcont, hpos]
  by_cases ha : a = []
  · simp [ha]
  · have : 0 < a.length := List.length_pos.mpr ha
    simp [ha, this]

/-- With no subscriber registered, a run over appends always returns. -/
theorem watchAppends_returns (sys : List Char → Sys) (others : LogWatcher → LogWatcher)
    (name : String)
    (hopen : ∀ c, ∃ file, (sys c).Open name = .ok file ∧ file.content = c ∧
      file.statErr = false ∧ file.seekErr = false ∧ file.readErr = false)
    (hothers : ∀ w, (others w).filename = w.filename ∧
      (others w).lastPosition = w.lastPosition ∧ (others w).notified = w.notified)
    (hnone : ∀ w, (others w).clients = [])
    (appends : List (List Char)) :
    ∀ (content : List Char) (w : LogWatcher),
      (∀ a ∈ appends, ShortLines a) →
      w.filename = name → w.lastPosition = content.length →
      (watchAppends sys others w content appends).returned = true := by
  induction appends with
  | nil => intro content w _ _ _; rfl
  | cons a later ih =>
    intro content w hshort hname hpos
    obtain ⟨file, hfile, hcont, hstat, hseek, hread⟩ := hopen (content ++ a)
    obtain ⟨ho1, ho2, _⟩ := hothers w
    have hshort2 : ∀ b ∈ later, ShortLines b :=
      fun b hb => hshort b (List.mem_cons_of_mem _ hb)
    have hcycle := checkForChanges_after_append (sys (content ++ a)) (others w) file content a
      (by rw [ho1, hname]; exact hfile) hcont hstat hseek hread (by rw [ho2, hpos])
      (hshort a (List.mem_cons_self _ _))
    simp only [watchAppends]
    rw [hcycle]
    by_cases ha : a = []
    · subst ha
      simp only [if_true]
      exact ih (content ++ []) (others w) hshort2 (ho1.trans hname) (by rw [ho2, hpos]; simp)
    · rw [if_neg ha, notifyClients_no_clients
        { others w with lastPosition := (content ++ a).length } (allLines a) (hnone w)]
      simp only
      exact ih (content ++ a) _ hshort2 (ho1.trans hname) rfl

/-- C4 (as the code has it). Starting from `lastPosition = 0` on an empty
file, with one cycle after each append, when every append is empty or ends
with `\n`, no line reaches `MaxScanTokenSize` bytes and no file operation
fails: a run whose cycles all return ends with the concatenation of the
batches handed to `notifyClients` equal to the list of completed lines of the
final contents, in file order, and with `lastPosition` the final size; and the
run does return when no subscriber is registered. -/
theorem watchAppends_delivers_completed_lines (sys : List Char → Sys)
    (others : LogWatcher → LogWatcher) (appends : List (List Char)) (w0 : LogWatcher)
    (hopen : ∀ c, ∃ file, (sys c).Open w0.filename = .ok file ∧ file.content = c ∧
      file.statErr = false ∧ file.seekErr = false ∧ file.readErr = false)
    (hothers : ∀ w, (others w).filename = w.filename ∧
      (others w).lastPosition = w.lastPosition ∧ (others w).notified = w.notified)
    (hterm : ∀ a ∈ appends, a = [] ∨ a.getLast? = some '\n')
    (hshort : ∀ a ∈ appends, ShortLines a)
    (hpos : w0.lastPosition = 0) (hnot : w0.notified = []) :
    (∀ w1, watchAppends sys others w0 [] appends = .done w1 →
      w1.notified.flatten = completedLines appends.flatten ∧
        w1.lastPosition = appends.flatten.length) ∧
    ((∀ w, (others w).clients = []) →
      (watchAppends sys others w0 [] appends).returned = true) := by
  constructor
  · intro w1 hrun
    have := watchAppends_invariant sys others w0.filename hopen hothers appends [] w0 w1
      hterm hshort rfl (by simp [hpos]) (by simp [hnot, completedLines, pieces_nil])
      (Or.inl rfl) hrun
    simpa using And.intro this.1 this.2.1
  · intro hnone
    exact watchAppends_returns sys others w0.filename hopen hothers hnone appends [] w0
      hshort rfl (by simp [hpos])

/-! ## `findMostRecentLogFile` -/

/-- The collected files are exactly the eligible entries, with their joined
path and modification time. -/
theorem mem_collectFiles (sys : Sys) (dirPath : String) (entries : List DirEntry)
    (f : fileInfo) :
    f ∈ collectFiles sys dirPath entries ↔
      ∃ e ∈ entries, Eligible sys e ∧ e.info = some f.modTime ∧
        f.path = sys.Join dirPath e.name := by
  induction entries with
  | nil => simp [collectFiles]
  | cons e rest ih =>
    simp only [collectFiles, List.mem_cons, exists_eq_or_imp]
    by_cases h1 : e.isDir = true
    · simp [h1, ih, Eligible]
    · by_cases h2 : HasPrefix e.name "." = true
      · simp [h1, h2, ih, Eligible]
      · by_cases h3 : HasSuffix (sys.ToLower e.name) ".log" = true
        · cases h4 : e.info with
          | none => simp [h1, h2, h3, h4, ih, Eligible]
          | some t =>
            simp only [h1, h2, h3, h4, Bool.not_true, Bool.false_eq_true, if_false,
              List.mem_cons, ih, Eligible, Option.isSome_some, Option.some.injEq]
            constructor
            · rintro (h | h)
              · left
                subst h
                simp [Bool.eq_false_iff.mpr h1, Bool.eq_false_iff.mpr h2]
              · right; exact h
            · rintro (h | h)
              · left
                obtain ⟨_, ht, hp⟩ := h
                cases f
                simp only at ht hp
                simp [ht, hp]
              · right; exact h
        · simp [h1, h2, h3, ih, Eligible]

/-- C10. With a `sort.Slice` that keeps its contract, `findMostRecentLogFile`
returns `dirPath` joined with the name of an eligible entry (not a directory,
not starting with ".", ending in ".log" once lowered, info readable) whose
modification time is not earlier than that of any eligible entry; and it
returns an error exactly when the directory cannot be read or holds no
eligible entry. -/
theorem findMostRecentLogFile_newest (sys : Sys) (hsort : SortsNewestFirst sys.SortSlice)
    (dirPath : String) :
    (∀ path, findMostRecentLogFile sys dirPath = some path →
      ∃ entries e t, sys.ReadDir dirPath = some entries ∧ e ∈ entries ∧ Eligible sys e ∧
        e.info = some t ∧ path = sys.Join dirPath e.name ∧
        ∀ e2 ∈ entries, Eligible sys e2 → ∀ t2, e2.info = some t2 → t2 ≤ t) ∧
    (findMostRecentLogFile sys dirPath = none ↔
      (sys.ReadDir dirPath = none ∨
        ∃ entries, sys.ReadDir dirPath = some entries ∧ ∀ e ∈ entries, ¬ Eligible sys e)) := by
  cases hrd : sys.ReadDir dirPath with
  | none => simp [findMostRecentLogFile, hrd]
  | some entries =>
    by_cases hfiles : collectFiles sys dirPath entries = []
    · have hnone : ∀ e ∈ entries, ¬ Eligible sys e := by
        intro e he hel
        obtain ⟨_, _, _, hinfo⟩ := hel
        obtain ⟨t, ht⟩ := Option.isSome_iff_exists.mp hinfo
        have : (⟨sys.Join dirPath e.name, t⟩ : fileInfo) ∈ collectFiles sys dirPath entries :=
          (mem_collectFiles sys dirPath entries _).mpr ⟨e, he, ⟨‹_›, ‹_›, ‹_›, hinfo⟩, ht, rfl⟩
        rw [hfiles] at this
        exact absurd this (List.not_mem_nil _)
      have hres : findMostRecentLogFile sys dirPath = none := by
        simp [findMostRecentLogFile, hrd, hfiles]
      rw [hres]
      refine ⟨fun path h => absurd h (by simp), ?_⟩
      simp only [true_iff]
      exact Or.inr ⟨entries, rfl, hnone⟩
    · obtain ⟨hperm, hpair⟩ := hsort (collectFiles sys dirPath entries)
      have hentries : entries.length ≠ 0 := by
        intro h0
        have : entries = [] := List.length_eq_zero.mp h0
        subst this
        exact hfiles rfl
      cases hs : sys.SortSlice (collectFiles sys dirPath entries)
          (fun a b => After a.modTime b.modTime) with
      | nil =>
        rw [hs] at hperm
        exact absurd hperm.symm.eq_nil hfiles
      | cons first others =>
        rw [hs] at hperm hpair
        have hres : findMostRecentLogFile sys dirPath = some first.path := by
          simp [findMostRecentLogFile, hrd, hfiles, hentries, hs]
        rw [hres]
        have hfirst : first ∈ collectFiles sys dirPath entries :=
          hperm.subset (List.mem_cons_self _ _)
        obtain ⟨e, he, hel, hinfo, hpath⟩ := (mem_collectFiles sys dirPath entries first).mp hfirst
        constructor
        · intro path hp
          simp only [Option.some.injEq] at hp
          subst hp
          refine ⟨entries, e, first.modTime, rfl, he, hel, hinfo, hpath, ?_⟩
          intro e2 he2 hel2 t2 ht2
          have hmem : (⟨sys.Join dirPath e2.name, t2⟩ : fileInfo) ∈
              collectFiles sys dirPath entries :=
            (mem_collectFiles sys dirPath entries _).mpr ⟨e2, he2, hel2, ht2, rfl⟩
          have hmem2 := hperm.symm.subset hmem
          rcases List.mem_cons.mp hmem2 with h | h
          · rw [← h]
          · have := (List.pairwise_cons.mp hpair).1 _ h
            simpa [After] using this
        · simp only [reduceCtorEq, false_iff, not_or, not_exists, not_and, not_forall]
          refine ⟨by simp, fun entries2 h2 => ?_⟩
          simp only [Option.some.injEq] at h2
          subst h2
          exact ⟨e, he, fun h => h hel⟩

/-- Insertion sort keeps the contract of `sort.Slice`. -/
theorem insertionSortSlice_sorts : SortsNewestFirst insertionSortSlice := by
  intro files
  unfold insertionSortSlice
  haveI : IsTotal fileInfo (fun a b => After b.modTime a.modTime = false) :=
    ⟨fun a b => by simp only [After, decide_eq_false_iff_not, not_lt]; exact le_total _ _⟩
  haveI : IsTrans fileInfo (fun a b => After b.modTime a.modTime = false) :=
    ⟨fun a b c hab hbc => by
      simp only [After, decide_eq_false_iff_not, not_lt] at *
      exact le_trans hbc hab⟩
  exact ⟨List.perm_insertionSort _ _, List.sorted_insertionSort _ _⟩

/-! ## The hub in general: room, frame, overflow -/

theorem heap_set_self (heap : List Chan) (c : Nat) (ch ch2 : Chan) (h : heap[c]? = some ch) :
    (heap.set c ch2)[c]? = some ch2 := by
  have hlt : c < heap.length := by
    rcases List.getElem?_eq_some.mp h with ⟨hlt, _⟩
    exact hlt
  exact List.getElem?_set_self hlt

theorem trySend_some (heap heap1 : List Chan) (client : Nat) (line : String)
    (h : trySend heap client line = .done (some heap1)) :
    ∃ ch2, heap1 = heap.set client ch2 := by
  unfold trySend at h
  split at h
  · simp at h
  · split at h
    · simp at h
    · split at h
      · simp only [Outcome.done.injEq, Option.some.injEq] at h
        exact ⟨_, h.symm⟩
      · simp at h

theorem closeChan_done (heap heap1 : List Chan) (client : Nat)
    (h : closeChan heap client = .done heap1) :
    ∃ ch2, heap1 = heap.set client ch2 := by
  unfold closeChan at h
  split at h
  · simp at h
  · split at h
    · simp at h
    · simp only [Outcome.done.injEq] at h
      exact ⟨_, h.symm⟩

theorem mem_deleteClient (clients : List Nat) (client c : Nat) (hc : c ≠ client) :
    c ∈ deleteClient clients client ↔ c ∈ clients := by
  simp [deleteClient, hc]

/-- Sending to `client` touches no other channel and no other registration. -/
theorem sendLines_frame (client : Nat) (lines : List String) (w w1 : LogWatcher)
    (h : sendLines client w lines = .done w1) (c : Nat) (hc : c ≠ client) :
    w1.heap[c]? = w.heap[c]? ∧ (c ∈ w1.clients ↔ c ∈ w.clients) := by
  induction lines generalizing w with
  | nil =>
    simp only [sendLines, Outcome.done.injEq] at h
    subst h
    exact ⟨rfl, Iff.rfl⟩
  | cons line rest ih =>
    simp only [sendLines] at h
    split at h
    · exact absurd h (by simp)
    · rename_i heap1 hs
      obtain ⟨ch2, rfl⟩ := trySend_some _ _ _ _ hs
      have := ih _ h
      simp only [List.getElem?_set_ne (Ne.symm hc)] at this
      exact this
    · split at h
      · exact absurd h (by simp)
      · rename_i heap1 hcl
        obtain ⟨ch2, rfl⟩ := closeChan_done _ _ _ hcl
        have := ih _ h
        simp only [List.getElem?_set_ne (Ne.symm hc), mem_deleteClient _ _ _ hc] at this
        exact this

/-- A channel with room for the whole batch receives it, in order, and stays
registered. -/
theorem sendLines_room (client : Nat) (lines : List String) (w : LogWatcher) (ch : Chan)
    (hch : w.heap[client]? = some ch) (hopen : ch.closed = false)
    (hroom : lines.length ≤ ch.free) :
    ∃ heap1, sendLines client w lines = .done { w with heap := heap1 } ∧
      heap1[client]? = some { ch with buf := ch.buf ++ lines } := by
  induction lines generalizing w ch with
  | nil => exact ⟨w.heap, rfl, by simpa using hch⟩
  | cons line rest ih =>
    have hlt : ch.buf.length < ch.cap := by
      simp only [List.length_cons, Chan.free] at hroom
      omega
    have hsend : trySend w.heap client line =
        .done (some (w.heap.set client { ch with buf := ch.buf ++ [line] })) := by
      simp [trySend, hch, hopen, hlt]
    have hroom2 : rest.length ≤ ({ ch with buf := ch.buf ++ [line] } : Chan).free := by
      simp only [List.length_cons, Chan.free, List.length_append, List.length_singleton,
        List.length_nil] at hroom ⊢
      omega
    obtain ⟨heap1, h1, h2⟩ := ih
      { w with heap := w.heap.set client { ch with buf := ch.buf ++ [line] } }
      { ch with buf := ch.buf ++ [line] } (heap_set_self _ _ _ _ hch) hopen hroom2
    refine ⟨heap1, ?_, ?_⟩
    · simp only [sendLines, hsend]
      exact h1
    · simpa [List.append_assoc] using h2

/-- A channel that the batch exceeds by two lines or more: the send after the
eviction hits the closed channel. -/
theorem sendLines_overflow (client : Nat) (lines : List String) (w : LogWatcher) (ch : Chan)
    (hch : w.heap[client]? = some ch) (hopen : ch.closed = false)
    (hover : ch.free + 2 ≤ lines.length) :
    sendLines client w lines = .panic "send on closed channel" := by
  induction lines generalizing w ch with
  | nil => simp at hover
  | cons line rest ih =>
    by_cases hlt : ch.buf.length < ch.cap
    · have hsend : trySend w.heap client line =
          .done (some (w.heap.set client { ch with buf := ch.buf ++ [line] })) := by
        simp [trySend, hch, hopen, hlt]
      have hover2 : ({ ch with buf := ch.buf ++ [line] } : Chan).free + 2 ≤ rest.length := by
        simp only [List.length_cons, Chan.free, List.length_append, List.length_singleton,
          List.length_nil] at hover ⊢
        omega
      have := ih { w with heap := w.heap.set client { ch with buf := ch.buf ++ [line] } }
        { ch with buf := ch.buf ++ [line] } (heap_set_self _ _ _ _ hch) hopen hover2
      simp only [sendLines, hsend]
      exact this
    · have hsend : trySend w.heap client line = .done none := by
        simp [trySend, hch, hopen, hlt]
      have hclose : closeChan w.heap client =
          .done (w.heap.set client { ch with closed := true }) := by
        simp [closeChan, hch, hopen]
      cases rest with
      | nil => simp at hover
      | cons line2 rest2 =>
        have hnext : trySend (w.heap.set client { ch with closed := true }) client line2 =
            .panic "send on closed channel" := by
          simp [trySend, heap_set_self _ _ _ _ hch]
        simp only [sendLines, hsend, hclose, hnext]

/-- Keys not among those still to visit are left as they are. -/
theorem rangeClients_frame (lines : List String) (keys : List Nat) (w w1 : LogWatcher)
    (h : rangeClients lines keys w = .done w1) (c : Nat) (hc : c ∉ keys) :
    w1.heap[c]? = w.heap[c]? ∧ (c ∈ w1.clients ↔ c ∈ w.clients) := by
  induction keys generalizing w with
  | nil =>
    simp only [rangeClients, Outcome.done.injEq] at h
    subst h
    exact ⟨rfl, Iff.rfl⟩
  | cons key keys ih =>
    have hck : c ≠ key := fun e => hc (e ▸ List.mem_cons_self _ _)
    have hcr : c ∉ keys := fun e => hc (List.mem_cons_of_mem _ e)
    simp only [rangeClients] at h
    split at h
    · split at h
      · exact absurd h (by simp)
      · rename_i w2 hs
        obtain ⟨h1, h2⟩ := sendLines_frame key lines w w2 hs c hck
        obtain ⟨g1, g2⟩ := ih w2 h hcr
        exact ⟨g1.trans h1, g2.trans h2⟩
    · exact ih w h hcr

/-- Isolation, for the keys still to visit: a registered open channel with room
for the batch ends up registered and holding the batch after its previous
contents, provided the range returns. -/
theorem rangeClients_isolated (lines : List String) (keys : List Nat) (w w1 : LogWatcher)
    (hnodup : keys.Nodup) (h : rangeClients lines keys w = .done w1)
    (client : Nat) (ch : Chan) (hmem : client ∈ keys) (hreg : client ∈ w.clients)
    (hch : w.heap[client]? = some ch) (hopen : ch.closed = false)
    (hroom : lines.length ≤ ch.free) :
    client ∈ w1.clients ∧ w1.heap[client]? = some { ch with buf := ch.buf ++ lines } := by
  induction keys generalizing w with
  | nil => simp at hmem
  | cons key keys ih =>
    obtain ⟨hknot, hnd⟩ := List.nodup_cons.mp hnodup
    simp only [rangeClients] at h
    by_cases hk : key = client
    · subst hk
      simp only [hreg, if_true] at h
      obtain ⟨heap1, hs, hh⟩ := sendLines_room key lines w ch hch hopen hroom
      rw [hs] at h
      simp only at h
      obtain ⟨g1, g2⟩ := rangeClients_frame lines keys _ w1 h key hknot
      exact ⟨g2.mpr hreg, g1.trans hh⟩
    · have hmem2 : client ∈ keys := by
        rcases List.mem_cons.mp hmem with e | e
        · exact absurd e.symm hk
        · exact e
      split at h
      · split at h
        · exact absurd h (by simp)
        · rename_i w2 hs
          obtain ⟨h1, h2⟩ := sendLines_frame key lines w w2 hs client (Ne.symm hk)
          exact ih w2 hnd h hmem2 (h2.mpr hreg) (h1.trans hch)
      · exact ih w hnd h hmem2 hreg hch

/-- Overflow, for the keys still to visit: with a registered open channel that
the batch exceeds by two lines or more, the range does not return. -/
theorem rangeClients_overflow (lines : List String) (keys : List Nat) (w : LogWatcher)
    (client : Nat) (ch : Chan) (hmem : client ∈ keys) (hreg : client ∈ w.clients)
    (hch : w.heap[client]? = some ch) (hopen : ch.closed = false)
    (hover : ch.free + 2 ≤ lines.length) :
    (rangeClients lines keys w).returned = false := by
  induction keys generalizing w with
  | nil => simp at hmem
  | cons key keys ih =>
    simp only [rangeClients]
    by_cases hk : key = client
    · subst hk
      simp only [hreg, if_true, sendLines_overflow key lines w ch hch hopen hover]
      rfl
    · have hmem2 : client ∈ keys := by
        rcases List.mem_cons.mp hmem with e | e
        · exact absurd e.symm hk
        · exact e
      split
      · split
        · rfl
        · rename_i w2 hs
          obtain ⟨h1, h2⟩ := sendLines_frame key lines w w2 hs client (Ne.symm hk)
          exact ih w2 hmem2 (h2.mpr hreg) (h1.trans hch)
      · exact ih w hmem2 hreg hch

/-- Whenever `notifyClients` returns, every registered open channel with room
for the batch is still registered and holds its previous contents followed by
the batch, whatever the other subscribers are (keys of a map are distinct). -/
theorem notifyClients_isolated (w w1 : LogWatcher) (lines : List String)
    (hnodup : w.clients.Nodup) (h : notifyClients w lines = .done w1)
    (client : Nat) (ch : Chan) (hreg : client ∈ w.clients)
    (hch : w.heap[client]? = some ch) (hopen : ch.closed = false)
    (hroom : lines.length ≤ ch.free) :
    client ∈ w1.clients ∧ w1.heap[client]? = some { ch with buf := ch.buf ++ lines } := by
  unfold notifyClients at h
  exact rangeClients_isolated lines w.clients _ w1 hnodup h client ch hreg hreg hch hopen hroom

/-- Whenever a registered open channel has `f` free slots and the batch has
`f + 2` lines or more, `notifyClients` panics instead of returning. -/
theorem notifyClients_overflow (w : LogWatcher) (lines : List String)
    (client : Nat) (ch : Chan) (hreg : client ∈ w.clients)
    (hch : w.heap[client]? = some ch) (hopen : ch.closed = false)
    (hover : ch.free + 2 ≤ lines.length) :
    (notifyClients w lines).returned = false := by
  unfold notifyClients
  exact rangeClients_overflow lines w.clients _ client ch hreg hreg hch hopen hover

/-- The disconnect goroutine panics on every channel that is already closed. -/
theorem ServeHTTP_disconnect_closed (w : LogWatcher) (messageChan : Nat) (ch : Chan)
    (hch : w.heap[messageChan]? = some ch) (hclosed : ch.closed = true) :
    ServeHTTP_disconnect w messageChan = .panic "close of closed channel" := by
  simp [ServeHTTP_disconnect, closeChan, hch, hclosed]

/-- Every cycle that switches to a replacement file and fails to open it
panics. -/
theorem checkForChanges_replacement_open_fails (sys : Sys) (w : LogWatcher)
    (newFile : String) (err : OpenError)
    (hopen : sys.Open w.filename = .error .notExist)
    (hfind : findMostRecentLogFile sys (sys.Dir w.filename) = some newFile)
    (hne : newFile ≠ w.filename) (hopen2 : sys.Open newFile = .error err) :
    checkForChanges sys w = .panic "invalid memory address or nil pointer dereference" := by
  unfold checkForChanges
  simp [hopen, IsNotExist, hfind, hne, hopen2, Name]

/-! ## When the hub returns, and what a cycle then delivers -/

theorem returned_iff {α : Type} (o : Outcome α) : o.returned = true ↔ ∃ a, o = .done a := by
  cases o <;> simp [Outcome.returned]

/-- A batch that exceeds the free slots of an open channel by one line at most
is handled without a panic. -/
theorem sendLines_returns (client : Nat) (lines : List String) (w : LogWatcher) (ch : Chan)
    (hch : w.heap[client]? = some ch) (hopen : ch.closed = false)
    (hfit : lines.length ≤ ch.free + 1) :
    (sendLines client w lines).returned = true := by
  induction lines generalizing w ch with
  | nil => rfl
  | cons line rest ih =>
    by_cases hlt : ch.buf.length < ch.cap
    · have hsend : trySend w.heap client line =
          .done (some (w.heap.set client { ch with buf := ch.buf ++ [line] })) := by
        simp [trySend, hch, hopen, hlt]
      have hfit2 : rest.length ≤ ({ ch with buf := ch.buf ++ [line] } : Chan).free + 1 := by
        simp only [List.length_cons, Chan.free, List.length_append, List.length_singleton,
          List.length_nil] at hfit ⊢
        omega
      have := ih { w with heap := w.heap.set client { ch with buf := ch.buf ++ [line] } }
        { ch with buf := ch.buf ++ [line] } (heap_set_self _ _ _ _ hch) hopen hfit2
      simp only [sendLines, hsend]
      exact this
    · have hsend : trySend w.heap client line = .done none := by
        simp [trySend, hch, hopen, hlt]
      have hclose : closeChan w.heap client =
          .done (w.heap.set client { ch with closed := true }) := by
        simp [closeChan, hch, hopen]
      have hrest : rest = [] := by
        apply List.eq_nil_of_length_eq_zero
        simp only [List.length_cons, Chan.free] at hfit
        omega
      subst hrest
      simp only [sendLines, hsend, hclose]
      rfl

theorem rangeClients_returns (lines : List String) (keys : List Nat) (w : LogWatcher)
    (hnodup : keys.Nodup)
    (hfit : ∀ c ∈ keys, c ∈ w.clients → ∃ ch, w.heap[c]? = some ch ∧ ch.closed = false ∧
      lines.length ≤ ch.free + 1) :
    (rangeClients lines keys w).returned = true := by
  induction keys generalizing w with
  | nil => rfl
  | cons key keys ih =>
    obtain ⟨hknot, hnd⟩ := List.nodup_cons.mp hnodup
    have hrest : ∀ c ∈ keys, c ∈ w.clients → ∃ ch, w.heap[c]? = some ch ∧ ch.closed = false ∧
        lines.length ≤ ch.free + 1 := fun c hc => hfit c (List.mem_cons_of_mem _ hc)
    simp only [rangeClients]
    split
    · rename_i hreg
      obtain ⟨ch, hch, hopen, hroom⟩ := hfit key (List.mem_cons_self _ _) hreg
      obtain ⟨w2, hw2⟩ := (returned_iff _).mp (sendLines_returns key lines w ch hch hopen hroom)
      rw [hw2]
      simp only
      apply ih w2 hnd
      intro c hc hc2
      have hck : c ≠ key := fun e => hknot (e ▸ hc)
      obtain ⟨h1, h2⟩ := sendLines_frame key lines w w2 hw2 c hck
      obtain ⟨ch2, g1, g2, g3⟩ := hrest c hc (h2.mp hc2)
      exact ⟨ch2, h1.trans g1, g2, g3⟩
    · exact ih w hnd hrest

/-- `notifyClients` returns when no registered channel is closed or exceeded by
the batch by two lines or more (keys of a map are distinct). -/
theorem notifyClients_returns (w : LogWatcher) (lines : List String)
    (hnodup : w.clients.Nodup)
    (hfit : ∀ c ∈ w.clients, ∃ ch, w.heap[c]? = some ch ∧ ch.closed = false ∧
      lines.length ≤ ch.free + 1) :
    (notifyClients w lines).returned = true := by
  unfold notifyClients
  exact rangeClients_returns lines w.clients _ hnodup (fun c hc _ => hfit c hc)

/-- A readable file read from the start by a watcher whose subscribers can take
its lines: the cycle returns, with the cursor at the size, the batch recorded,
and every channel with room holding the lines after its previous contents. -/
theorem from_start_delivers (file : File) (x : LogWatcher) (hpos : x.lastPosition = 0)
    (hnodup : x.clients.Nodup)
    (hfit : ∀ c ∈ x.clients, ∃ ch, x.heap[c]? = some ch ∧ ch.closed = false ∧
      (allLines file.content).length ≤ ch.free + 1) :
    ∃ w1, (if file.content = [] then Outcome.done x
        else notifyClients { x with lastPosition := file.content.length }
          (allLines file.content)) = .done w1 ∧
      w1.lastPosition = file.content.length ∧ w1.filename = x.filename ∧
      w1.notified = x.notified ++
        (if file.content = [] then [] else [allLines file.content]) ∧
      ∀ client ch, client ∈ x.clients → x.heap[client]? = some ch → ch.closed = false →
        (allLines file.content).length ≤ ch.free →
        client ∈ w1.clients ∧
          w1.heap[client]? = some { ch with buf := ch.buf ++ allLines file.content } := by
  by_cases hc : file.content = []
  · refine ⟨x, by simp [hc], by simp [hc, hpos], rfl, by simp [hc], ?_⟩
    intro client ch hreg hch _ _
    refine ⟨hreg, ?_⟩
    rw [hc, allLines_nil, List.append_nil]
    exact hch
  · obtain ⟨w1, hw1⟩ := (returned_iff _).mp
      (notifyClients_returns { x with lastPosition := file.content.length }
        (allLines file.content) hnodup hfit)
    obtain ⟨h1, h2, h3⟩ := notifyClients_fields _ _ _ hw1
    refine ⟨w1, by simp only [hc, if_false]; exact hw1, h2, h1, by simp only [hc, if_false]; exact h3, ?_⟩
    intro client ch hreg hch hopen hroom
    exact notifyClients_isolated { x with lastPosition := file.content.length } w1
      (allLines file.content) hnodup hw1 client ch hreg hch hopen hroom

/-- Truncation, down to the channels: when the watched file opens, is shorter
than `lastPosition` and is readable, and no registered channel is closed or
exceeded by the file's lines by two or more, the cycle returns with
`lastPosition` equal to the file's size, the lines recorded as one batch, and
every registered channel with room for them holding its previous contents
followed by every line of the file in file order. -/
theorem checkForChanges_truncation_delivers (sys : Sys) (w : LogWatcher) (file : File)
    (hopen : sys.Open w.filename = .ok file)
    (hstat : file.statErr = false) (hseek : file.seekErr = false)
    (hread : file.readErr = false) (hshort : ShortLines file.content)
    (htrunc : file.content.length < w.lastPosition)
    (hnodup : w.clients.Nodup)
    (hfit : ∀ c ∈ w.clients, ∃ ch, w.heap[c]? = some ch ∧ ch.closed = false ∧
      (allLines file.content).length ≤ ch.free + 1) :
    ∃ w1, checkForChanges sys w = .done w1 ∧
      w1.lastPosition = file.content.length ∧ w1.filename = w.filename ∧
      w1.notified = w.notified ++
        (if file.content = [] then [] else [allLines file.content]) ∧
      ∀ client ch, client ∈ w.clients → w.heap[client]? = some ch → ch.closed = false →
        (allLines file.content).length ≤ ch.free →
        client ∈ w1.clients ∧
          w1.heap[client]? = some { ch with buf := ch.buf ++ allLines file.content } := by
  rw [(checkForChanges_truncation_call sys w file hopen hstat hseek hread hshort htrunc).1]
  exact from_start_delivers file { w with lastPosition := 0 } rfl hnodup hfit

/-- Rotation, down to the channels: when the watched path is not found, the
finder returns a readable file other than the current path, and no registered
channel is closed or exceeded by that file's lines by two or more, the cycle
returns with `filename` switched, `lastPosition` equal to the new file's size,
the lines recorded as one batch, and every registered channel with room for
them holding its previous contents followed by every line of the new file. -/
theorem checkForChanges_rotation_delivers (sys : Sys) (w : LogWatcher) (newFile : String)
    (file : File)
    (hopen : sys.Open w.filename = .error .notExist)
    (hfind : findMostRecentLogFile sys (sys.Dir w.filename) = some newFile)
    (hne : newFile ≠ w.filename) (hopen2 : sys.Open newFile = .ok file)
    (hstat : file.statErr = false) (hseek : file.seekErr = false)
    (hread : file.readErr = false) (hshort : ShortLines file.content)
    (hnodup : w.clients.Nodup)
    (hfit : ∀ c ∈ w.clients, ∃ ch, w.heap[c]? = some ch ∧ ch.closed = false ∧
      (allLines file.content).length ≤ ch.free + 1) :
    ∃ w1, checkForChanges sys w = .done w1 ∧
      w1.lastPosition = file.content.length ∧ w1.filename = newFile ∧
      w1.notified = w.notified ++
        (if file.content = [] then [] else [allLines file.content]) ∧
      ∀ client ch, client ∈ w.clients → w.heap[client]? = some ch → ch.closed = false →
        (allLines file.content).length ≤ ch.free →
        client ∈ w1.clients ∧
          w1.heap[client]? = some { ch with buf := ch.buf ++ allLines file.content } := by
  rw [((checkForChanges_rotation_call sys w hopen).1 newFile file hfind hne hopen2 hstat hseek
    hread hshort).1]
  exact from_start_delivers file { w with filename := newFile, lastPosition := 0 } rfl
    hnodup hfit

/-- Truncation with a channel that cannot take the lines: whenever a registered
open channel has `f` free slots and the truncated file has `f + 2` lines or
more, the cycle panics instead of ending. -/
theorem checkForChanges_truncation_overflow (sys : Sys) (w : LogWatcher) (file : File)
    (hopen : sys.Open w.filename = .ok file)
    (hstat : file.statErr = false) (hseek : file.seekErr = false)
    (hread : file.readErr = false) (hshort : ShortLines file.content)
    (htrunc : file.content.length < w.lastPosition)
    (client : Nat) (ch : Chan) (hreg : client ∈ w.clients)
    (hch : w.heap[client]? = some ch) (hclosed : ch.closed = false)
    (hover : ch.free + 2 ≤ (allLines file.content).length) :
    (checkForChanges sys w).returned = false := by
  have hc : file.content ≠ [] := by
    intro h
    rw [h, allLines_nil] at hover
    simp at hover
  rw [(checkForChanges_truncation_call sys w file hopen hstat hseek hread hshort htrunc).1,
    if_neg hc]
  exact notifyClients_overflow { w with lastPosition := file.content.length }
    (allLines file.content) client ch hreg hch hclosed hover

/-- Rotation with a channel that cannot take the lines: whenever a registered
open channel has `f` free slots and the replacement file has `f + 2` lines or
more, the cycle panics instead of ending. -/
theorem checkForChanges_rotation_overflow (sys : Sys) (w : LogWatcher) (newFile : String)
    (file : File)
    (hopen : sys.Open w.filename = .error .notExist)
    (hfind : findMostRecentLogFile sys (sys.Dir w.filename) = some newFile)
    (hne : newFile ≠ w.filename) (hopen2 : sys.Open newFile = .ok file)
    (hstat : file.statErr = false) (hseek : file.seekErr = false)
    (hread : file.readErr = false) (hshort : ShortLines file.content)
    (client : Nat) (ch : Chan) (hreg : client ∈ w.clients)
    (hch : w.heap[client]? = some ch) (hclosed : ch.closed = false)
    (hover : ch.free + 2 ≤ (allLines file.content).length) :
    (checkForChanges sys w).returned = false := by
  have hc : file.content ≠ [] := by
    intro h
    rw [h, allLines_nil] at hover
    simp at hover
  rw [((checkForChanges_rotation_call sys w hopen).1 newFile file hfind hne hopen2 hstat hseek
    hread hshort).1, if_neg hc]
  exact notifyClients_overflow
    { w with filename := newFile, lastPosition := file.content.length }
    (allLines file.content) client ch hreg hch hclosed hover

/-! ## The hub on a full channel -/

/-- C1. A subscriber registered by `ServeHTTP` that consumes nothing: a batch
of 101 lines fills its channel, unregisters it and closes it; a batch of 102
lines goes on after that to send the 102nd line on the channel just closed,
and `notifyClients` panics. -/
theorem notifyClients_sends_on_closed_channel :
    notifyClients oneSubscriber (List.replicate 101 "x") = .done evictedSubscriber ∧
    notifyClients oneSubscriber (List.replicate 102 "x") =
      .panic "send on closed channel" := by
  decide

/-- C2. A subscriber unregistered and closed by overflow in `notifyClients`:
the disconnect goroutine of `ServeHTTP` then closes its channel a second time
and panics, whether or not the consumer has taken the pending lines. -/
theorem disconnect_after_eviction_closes_twice :
    notifyClients oneSubscriber (List.replicate 101 "x") = .done evictedSubscriber ∧
    evictedSubscriber.clients = [] ∧
    ServeHTTP_disconnect evictedSubscriber 0 = .panic "close of closed channel" ∧
    ServeHTTP_disconnect (drain evictedSubscriber 0) 0 =
      .panic "close of closed channel" := by
  decide

/-- C5. A subscriber with an empty channel next to a sibling whose channel is
full: on a batch of two lines `notifyClients` panics on the sibling's second
line, in either order of the range; when the sibling comes first the empty
channel has received nothing. -/
theorem notifyClients_full_sibling_panics :
    notifyClients (siblings [1, 0]) ["a", "b"] = .panic "send on closed channel" ∧
    notifyClients (siblings [0, 1]) ["a", "b"] = .panic "send on closed channel" ∧
    sendLines 1 (siblings [1, 0]) ["a"] =
      .done { siblings [0] with
        heap := [{ buf := [], cap := 100, closed := false },
                 { buf := List.replicate 100 "x", cap := 100, closed := true }] } := by
  decide

/-- C9. The watched path is gone and the replacement found in its directory
cannot be opened: `checkForChanges` dereferences the nil file in the log call
and panics, and so does the `Watch` loop. -/
theorem checkForChanges_nil_file_panics :
    findMostRecentLogFile sysUnreadableReplacement "logs" = some "logs/app-2.log" ∧
    checkForChanges sysUnreadableReplacement (NewLogWatcher "logs/app.log") =
      .panic "invalid memory address or nil pointer dereference" ∧
    Watch [sysUnreadableReplacement, sysUnreadableReplacement]
        (NewLogWatcher "logs/app.log") =
      .panic "invalid memory address or nil pointer dereference" := by
  decide

/-- C6. The watched file was cut to `x`, newline, `y` (3 bytes, readable) while
the cursor was at 10, and one of two subscribers has a full channel: the cycle
resets the cursor and starts sending the two lines, evicts the full channel on
`x`, sends `y` on the channel it just closed and panics, in either order of
the range. It neither sends every line to the subscribers nor ends. With a
subscriber that has room the same cycle delivers `x`, `y` to its channel and
ends with `lastPosition = 3`. -/
theorem checkForChanges_truncation_panics :
    "x\ny".data.length < ({ siblings [1, 0] with lastPosition := 10 } : LogWatcher).lastPosition ∧
    checkForChanges (sysWith "logs/app.log" "x\ny".data)
        { siblings [1, 0] with lastPosition := 10 } =
      .panic "send on closed channel" ∧
    checkForChanges (sysWith "logs/app.log" "x\ny".data)
        { siblings [0, 1] with lastPosition := 10 } =
      .panic "send on closed channel" ∧
    checkForChanges (sysWith "logs/app.log" "x\ny".data)
        { oneSubscriber with lastPosition := 10 } =
      .done { oneSubscriber with
        lastPosition := 3, notified := [["x", "y"]],
        heap := [{ buf := ["x", "y"], cap := 100, closed := false }] } := by
  decide

/-- C7. The watched path is gone, the finder returns the readable
`logs/app-2.log` (two lines), and one of two subscribers has a full channel:
the cycle switches to the new file and starts sending its two lines, evicts
the full channel on `l1`, sends `l2` on the channel it just closed and panics,
in either order of the range. With a subscriber that has room the same cycle
delivers `l1`, `l2` to its channel and ends with `lastPosition = 6`; with no
replacement to be found the state is returned unchanged. -/
theorem checkForChanges_rotation_panics :
    findMostRecentLogFile sysRotated "logs" = some "logs/app-2.log" ∧
    checkForChanges sysRotated (siblings [1, 0]) = .panic "send on closed channel" ∧
    checkForChanges sysRotated (siblings [0, 1]) = .panic "send on closed channel" ∧
    checkForChanges sysRotated oneSubscriber =
      .done { oneSubscriber with
        filename := "logs/app-2.log", lastPosition := 6, notified := [["l1", "l2"]],
        heap := [{ buf := ["l1", "l2"], cap := 100, closed := false }] } ∧
    checkForChanges sysNoReplacement (siblings [1, 0]) = .done (siblings [1, 0]) := by
  decide

/-! ## Concrete cycles -/

/-- C3, counterexample. The file holds the unterminated fragment `ab`: the
first cycle delivers `ab`; once `c` and the terminator are appended the next
cycle delivers `c`. The complete line `abc` is never delivered. -/
theorem partial_line_is_delivered :
    Watch [sysWith "logs/app.log" "ab".data, sysWith "logs/app.log" "abc\n".data]
        (NewLogWatcher "logs/app.log") =
      .done { NewLogWatcher "logs/app.log" with
        lastPosition := 4, notified := [["ab"], ["c"]] } := by
  decide

/-- C4, counterexample. Appending `ab` and then `c` with its terminator: the
batches concatenate to `ab`, `c`, while the final contents have the one
completed line `abc`. -/
theorem appends_split_a_line :
    watchAppends (sysWith "logs/app.log") id (NewLogWatcher "logs/app.log") []
        ["ab".data, "c\n".data] =
      .done { NewLogWatcher "logs/app.log" with
        lastPosition := 4, notified := [["ab"], ["c"]] } ∧
    completedLines ("ab".data ++ "c\n".data) = ["abc"] := by
  decide

/-- C8, counterexample. The file was cut below the cursor and the read then
fails: the cycle ends with `lastPosition = 0`, not the `10` it started with. -/
theorem failure_after_truncation_moves_cursor :
    watcherAt10.lastPosition = 10 ∧
    checkForChanges sysTruncatedReadFails watcherAt10 =
      .done { watcherAt10 with lastPosition := 0 } := by
  decide

/-- The consumer changes nothing but its channel. -/
theorem drain_fields (messageChan : Nat) (w : LogWatcher) :
    (drain w messageChan).filename = w.filename ∧
      (drain w messageChan).lastPosition = w.lastPosition ∧
      (drain w messageChan).notified = w.notified := by
  unfold drain
  split <;> simp

/-! ## The theorems at concrete inputs -/

/-- C3 at a concrete input: a completed line `x` followed by the fragment `ab`. -/
theorem checkForChanges_partial_line_witness :
    checkForChanges (sysWith "logs/app.log" "x\nab".data) (NewLogWatcher "logs/app.log") =
      notifyClients { NewLogWatcher "logs/app.log" with lastPosition := 4 } ["x", "ab"] :=
  (checkForChanges_partial_line (sysWith "logs/app.log" "x\nab".data)
    (NewLogWatcher "logs/app.log") (plainFile "logs/app.log" "x\nab") "x\n".data "ab".data
    rfl rfl rfl rfl (by decide) (by decide) (by decide) (by decide) (by decide)
    (by decide)).1

/-- C8 at concrete inputs: an open failing with another error; and a
replacement file whose `Stat` fails after the switch. -/
theorem checkForChanges_on_failure_witness :
    checkForChanges sysOpenFails watcherAt10 = .done watcherAt10 ∧
    checkForChanges sysReplacementStatFails watcherAt10 =
      .done { watcherAt10 with filename := "logs/app-2.log", lastPosition := 0 } :=
  ⟨(checkForChanges_on_failure sysOpenFails watcherAt10).1 rfl,
    (checkForChanges_on_failure sysReplacementStatFails watcherAt10).2.2
      "logs/app-2.log"
      { name := "logs/app-2.log", content := "l1\n".data, statErr := true, seekErr := false,
        readErr := false }
      rfl (by decide) (by decide) rfl (by decide)⟩

/-- C10 at a concrete input: the directory of `sysRotated`. -/
theorem findMostRecentLogFile_newest_witness :
    ∃ entries e t, sysRotated.ReadDir "logs" = some entries ∧ e ∈ entries ∧
      Eligible sysRotated e ∧ e.info = some t ∧
      "logs/app-2.log" = sysRotated.Join "logs" e.name ∧
      ∀ e2 ∈ entries, Eligible sysRotated e2 → ∀ t2, e2.info = some t2 → t2 ≤ t :=
  (findMostRecentLogFile_newest sysRotated insertionSortSlice_sorts "logs").1
    "logs/app-2.log" (by decide)

/-- C4 at a concrete input: one subscriber that consumes between cycles, and
the appends `a\nb\n`, nothing, `c\n`. -/
theorem watchAppends_delivers_completed_lines_witness :
    watchAppends (sysWith "logs/app.log") (fun w => drain w 0) oneSubscriber []
        ["a\nb\n".data, [], "c\n".data] =
      .done { oneSubscriber with
        lastPosition := 6, notified := [["a", "b"], ["c"]],
        heap := [{ buf := ["c"], cap := 100, closed := false }] } ∧
    [["a", "b"], ["c"]].flatten = completedLines ["a\nb\n".data, [], "c\n".data].flatten ∧
    6 = ["a\nb\n".data, [], "c\n".data].flatten.length :=
  ⟨by decide,
    (watchAppends_delivers_completed_lines (sysWith "logs/app.log") (fun w => drain w 0)
      ["a\nb\n".data, [], "c\n".data] oneSubscriber
      (fun _ => ⟨_, rfl, rfl, rfl, rfl, rfl⟩) (drain_fields 0) (by decide) (by decide)
      rfl rfl).1
      { oneSubscriber with
        lastPosition := 6, notified := [["a", "b"], ["c"]],
        heap := [{ buf := ["c"], cap := 100, closed := false }] }
      (by decide)⟩

end LogSite
